import Mathlib

set_option maxRecDepth 100000

/-!
Verification development for the PycroFlow protocol-orchestration engine and
its tubing-stack delivery scheduler.

The definitions below are a shallow embedding of the Python source:

* `hamilton_system.py` — `LegacyArchitecture._assemble_tubing_stack`,
  `_calc_vol_to_inlet` and the surrounding data (tubing configuration,
  protocol entries, reservoir ids stored in an `np.int32` array, volumes in
  an `np.float64` array).  Machine floats are idealised as rationals `ℚ`;
  `np.int32` reservoir-id storage is modelled by an explicit wrap `toInt32`.
  The `IndexError` raised by `np.argwhere(...)[0]` on an all-nonpositive
  array is modelled by `Option` (`none` = the exception propagates).

* `PycroFlow/orchestration.py` — the thread-exchange signal board
  (message lists, finished events, control flags), `wait_xchange`,
  `run_protocol`, the `run` branch for an unbound system,
  `poll_protocol_finished`, and the class-level `threadexchange` attribute
  of `ProtocolOrchestrator`.  Concurrency is modelled with a static view of
  the shared state: flags and peers' logs are frozen for the duration of
  one call, which matches the claims (they all quantify over a fixed state
  of the board at call time).  The unbounded polling loop of `wait_xchange`
  is given explicit fuel; `none` means the loop has not terminated within
  the fuel.
-/

namespace PycroFlow

/-! ### Tubing-stack scheduler (hamilton_system.py, lines 490-566) -/

/-- Wrap an integer into the range of `np.int32`, as numpy does when storing
a Python int into an `int32` array (`reservoirs[idx] = pentry['reservoir_id']`). -/
def toInt32 (x : ℤ) : ℤ := (x + 2 ^ 31) % 2 ^ 32 - 2 ^ 31

/-- The tubing dead-volume configuration (`self.tubing_config`), a mapping
from tubing segments to dead volumes in µl.  The legacy architecture reads
exactly three kinds of keys: `(reservoir_id, 'pump_a')`,
`('pump_a', 'valve_flush')` and `('valve_flush', 'sample')`; the spec's
TubingGraph is a total mapping, so the reservoir→pump segment is a total
function of the reservoir id. -/
structure TubingConfig where
  resPump : ℤ → ℚ
  pumpFlush : ℚ
  flushSample : ℚ

/-- `LegacyArchitecture._calc_vol_to_inlet` (lines 558-566): the tubing
volume between a reservoir and the inlet needle,
`tubing_config[(rid,'pump_a')] + tubing_config[('pump_a','valve_flush')]
+ tubing_config[('valve_flush','sample')]`. -/
def calc_vol_to_inlet (tc : TubingConfig) (rid : ℤ) : ℚ :=
  tc.resPump rid + tc.pumpFlush + tc.flushSample

/-- A protocol entry as read by `_assemble_tubing_stack`: `inject` carries
`reservoir_id` and `volume`; `flush` carries `flushfactor` (defaulted to 1
at protocol-build time by `pentry.get('flushfactor', 1)`); every other
entry type (`acquire`, `incubate`, `await_acquisition`, ...) leaves the
`np.zeros` defaults in place, i.e. reservoir 0 and volume 0. -/
inductive PEntry where
  | inject (reservoir_id : ℤ) (volume : ℚ)
  | flush (flushfactor : ℚ)
  | other
deriving DecidableEq

/-- The `(reservoirs[idx], volumes[idx])` pair written by the loop at lines
510-523 for one protocol entry.  For a flush entry the volume is
`flushfactor * (tubing_config[(flushbuffer, 'pump_a')] +
tubing_config[('pump_a', 'valve_flush')])`; reservoir ids are stored into
an `int32` array. -/
def stepRV (tc : TubingConfig) (fb : ℤ) : PEntry → ℤ × ℚ
  | .inject rid v => (toInt32 rid, v)
  | .flush ff => (toInt32 fb, ff * (tc.resPump fb + tc.pumpFlush))
  | .other => (0, 0)

/-- The `reservoirs` array of `_assemble_tubing_stack` (lines 506-524):
one slot per remaining protocol entry plus the synthetic terminal slot
`reservoirs[-1] = special_names['flushbuffer_a']`. -/
def reservoirsArr (tc : TubingConfig) (fb : ℤ) (steps : List PEntry) : List ℤ :=
  steps.map (fun p => (stepRV tc fb p).1) ++ [toInt32 fb]

/-- The `volumes` array of `_assemble_tubing_stack` (lines 506-525):
one slot per remaining protocol entry plus
`volumes[-1] = _calc_vol_to_inlet(reservoirs[-1])`. -/
def volumesArr (tc : TubingConfig) (fb : ℤ) (steps : List PEntry) : List ℚ :=
  steps.map (fun p => (stepRV tc fb p).2) ++ [calc_vol_to_inlet tc (toInt32 fb)]

/-- `np.cumsum`: element `j` of the result is the sum of the first `j+1`
elements of the input. -/
def cumsum (l : List ℚ) : List ℚ :=
  (List.range l.length).map (fun j => (l.take (j + 1)).sum)

/-- `np.argwhere(pred(arr)).flatten()[0]` without the final indexing:
the first index of the list satisfying `p`, or `none` (in which case the
Python code raises `IndexError`). -/
def argfirst (p : ℚ → Bool) : List ℚ → Option ℕ
  | [] => none
  | c :: cs => if p c then some 0 else (argfirst p cs).map (· + 1)

/-- The inner loop of `_assemble_tubing_stack` (lines 546-554):
for each `cum_idx` in the precomputed `range(cum_start, cum_stop)`, take
`vol_step = min(vol_rest, volumes_cum[cum_idx])`; skip when it is zero,
otherwise append `(reservoirs[cum_idx], vol_step)`, subtract `vol_step`
from the whole `volumes_cum` array (numpy broadcast of `-=`) and from
`vol_rest`.  Returns the appended tuples and the mutated array. -/
def innerLoop (reservoirs : List ℤ) : List ℕ → List ℚ → ℚ → List (ℤ × ℚ) × List ℚ
  | [], cum, _ => ([], cum)
  | j :: js, cum, volRest =>
    let volStep := min volRest (cum.getD j 0)
    if volStep = 0 then innerLoop reservoirs js cum volRest
    else
      let res := innerLoop reservoirs js (cum.map (fun c => c - volStep)) (volRest - volStep)
      ((reservoirs.getD j 0, volStep) :: res.1, res.2)

/-- The per-step volume `vol` of `_assemble_tubing_stack` (lines 534-541):
`volumes[idx] + deadvol(reservoirs[idx]) - deadvol(reservoirs[idx-1])`,
without the subtraction for `idx == 0`. -/
def stepVol (tc : TubingConfig) (reservoirs : List ℤ) (volumes : List ℚ) (idx : ℕ) : ℚ :=
  if idx = 0 then
    volumes.getD 0 0 + calc_vol_to_inlet tc (reservoirs.getD 0 0)
  else
    volumes.getD idx 0 + calc_vol_to_inlet tc (reservoirs.getD idx 0)
      - calc_vol_to_inlet tc (reservoirs.getD (idx - 1) 0)

/-- `cum_stop` (lines 544-547): one past the first entry of `volumes_cum`
strictly exceeding `vol`, or the array length when the `IndexError` of that
lookup is caught by the `try`/`except`. -/
def cumStopOf (vol : ℚ) (cum : List ℚ) : ℕ :=
  match argfirst (fun c => decide (vol < c)) cum with
  | some k => k + 1
  | none => cum.length

/-- One iteration of the outer loop of `_assemble_tubing_stack`
(lines 533-554): compute `vol` and `cum_start` (first strictly positive
entry of `volumes_cum`; `none` models the uncaught `IndexError` when there
is none), then run the inner loop over `range(cum_start, cum_stop)`,
producing the step's injection tuples and the mutated `volumes_cum`. -/
def outerStep (tc : TubingConfig) (reservoirs : List ℤ) (volumes : List ℚ)
    (idx : ℕ) (cum : List ℚ) : Option (List (ℤ × ℚ) × List ℚ) :=
  match argfirst (fun c => decide (0 < c)) cum with
  | none => none
  | some cumStart =>
    some (innerLoop reservoirs
      (List.range' cumStart (cumStopOf (stepVol tc reservoirs volumes idx) cum - cumStart))
      cum (stepVol tc reservoirs volumes idx))

/-- The outer loop of `_assemble_tubing_stack` (lines 532-555) over the
remaining-step indices `idx` (0-based within the slice); the mutated
`volumes_cum` of each step is carried into the next step. -/
def outerLoop (tc : TubingConfig) (reservoirs : List ℤ) (volumes : List ℚ) :
    List ℕ → List ℚ → Option (List (List (ℤ × ℚ)))
  | [], _ => some []
  | idx :: idxs, cum =>
    match outerStep tc reservoirs volumes idx cum with
    | none => none
    | some res =>
      match outerLoop tc reservoirs volumes idxs res.2 with
      | none => none
      | some rest => some (res.1 :: rest)

/-- `_assemble_tubing_stack` restricted to the remaining-step slice
`self.protocol[i:]`: the list of injection-tuple lists, one per remaining
step, in slice order.  `none` models the uncaught `IndexError` of
`np.argwhere(volumes_cum > 0).flatten()[0]`. -/
def assembleTubingStack (tc : TubingConfig) (fb : ℤ) (steps : List PEntry) :
    Option (List (List (ℤ × ℚ))) :=
  outerLoop tc (reservoirsArr tc fb steps) (volumesArr tc fb steps)
    (List.range steps.length) (cumsum (volumesArr tc fb steps))

/-- The mutable state of `LegacyArchitecture` that `_assemble_tubing_stack`
reads (`self.protocol`, `self.tubing_config`,
`self.special_names['flushbuffer_a']`) and writes (`self.tubing_stack`). -/
structure LegacyArchitecture where
  protocol : List PEntry
  tubing_config : TubingConfig
  flushbuffer_a : ℤ
  tubing_stack : List (ℕ × List (ℤ × ℚ))

/-- The method `_assemble_tubing_stack(self, i)` (lines 490-556): recompute
the column for `self.protocol[i:]` and store it in `self.tubing_stack`,
keyed by absolute protocol-step index `range(i, i + nsteps)`. -/
def assemble_tubing_stack_method (st : LegacyArchitecture) (i : ℕ) :
    Option LegacyArchitecture :=
  (assembleTubingStack st.tubing_config st.flushbuffer_a (st.protocol.drop i)).map
    (fun col =>
      { st with tubing_stack := (List.range' i (st.protocol.drop i).length).zip col })

/-- Sum of the volumes of all `(reservoir, volume)` tuples of a list that
reference reservoir `r`. -/
def drawnRes (ts : List (ℤ × ℚ)) (r : ℤ) : ℚ :=
  (ts.map (fun e => if e.1 = r then e.2 else 0)).sum

/-- Total requested volume of reservoir `r` over a step list, counting a
flush entry as a request for the flush-buffer reservoir of its computed
flush volume and any other non-inject entry as a zero-volume request for
reservoir 0 (the `np.zeros` defaults). -/
def requestedTotal (tc : TubingConfig) (fb : ℤ) (steps : List PEntry) (r : ℤ) : ℚ :=
  drawnRes (steps.map (stepRV tc fb)) r

/-- The tubing configuration of unit test `test_tubing_stack_1`
(`hamilton_test` setUp): every segment has dead volume 0. -/
def tcZero : TubingConfig := ⟨fun _ => 0, 0, 0⟩

/-- The protocol of the unit tests: `inject(0, 500)`, `inject(1, 200)`,
`acquire`, `inject(0, 300)`; flush buffer is reservoir 3. -/
def testProtocol : List PEntry :=
  [.inject 0 500, .inject 1 200, .other, .inject 0 300]

example :
    assembleTubingStack tcZero 3 testProtocol =
      some [[(0, 500)], [(1, 200)], [], [(0, 300)]] := by with_unfolding_all decide

/-- The tubing configuration of `test_tubing_stack_2`:
`('valve_flush','sample') = 100`, everything else 0. -/
def tcTest2 : TubingConfig := ⟨fun _ => 0, 0, 100⟩

example :
    assembleTubingStack tcTest2 3 testProtocol =
      some [[(0, 500), (1, 100)], [(1, 100), (0, 100)], [], [(0, 200), (3, 100)]] := by
  with_unfolding_all decide

/-- The tubing configuration of `test_tubing_stack_3`:
`(0,'pump_a') = 100`, `(1,'pump_a') = 300`, `(3,'pump_a') = 200`,
both shared segments 0. -/
def tcTest3 : TubingConfig :=
  ⟨fun r => if r = 0 then 100 else if r = 1 then 300 else if r = 3 then 200 else 0, 0, 0⟩

example :
    assembleTubingStack tcTest3 3 testProtocol =
      some [[(0, 500), (1, 100)], [(1, 100), (0, 300)], [], [(3, 200)]] := by
  with_unfolding_all decide


/-! ### Claim fixtures for the scheduler -/

/-- The tubing configuration of the spec's end-to-end scenario (claim about
step 0 of `[inject(A,500), inject(B,200)]`): reservoir A (id 1) → pump has
dead volume 100, pump → sample 50 (placed on the `('pump_a','valve_flush')`
segment), every other segment 0; flush buffer is reservoir 3. -/
def tcScenario : TubingConfig := ⟨fun r => if r = 1 then 100 else 0, 50, 0⟩

/-- The step sequence of the spec's end-to-end scenario:
`[inject(A=1, 500), inject(B=2, 200)]`. -/
def stepsScenario : List PEntry := [.inject 1 500, .inject 2 200]

/-- A tubing configuration with dead volume 500 between reservoir 1 and the
pump and 0 everywhere else. -/
def tcBigDead : TubingConfig := ⟨fun r => if r = 1 then 500 else 0, 0, 0⟩

/-- A tubing configuration whose only nonzero dead volume is 200 between
the flush-buffer reservoir 3 and the pump. -/
def tcFbDead : TubingConfig := ⟨fun r => if r = 3 then 200 else 0, 0, 0⟩

/-- A tubing configuration with a negative dead volume −50 between
reservoir 1 and the pump. -/
def tcNegDead : TubingConfig := ⟨fun r => if r = 1 then -50 else 0, 0, 0⟩


/-! ### Orchestration signal board (PycroFlow/orchestration.py) -/

/-- The control flags of the `threadexchange` dictionary
(orchestration.py lines 328-336): `threading.Event` objects read as
booleans. -/
structure Flags where
  start_protocol_flag : Bool
  pause_protocol_flag : Bool
  abort_protocol_flag : Bool
  abort_flag : Bool
  graceful_stop_flag : Bool
deriving DecidableEq

/-- The three subsystems, i.e. the values of the `target` class attribute of
the handler classes (`'fluid'`, `'img'`, `'illu'`). -/
inductive Target where
  | fluid
  | img
  | illu
deriving DecidableEq

/-- The Python name string of a target subsystem. -/
def Target.name : Target → String
  | .fluid => "fluid"
  | .img => "img"
  | .illu => "illu"

/-- The shared `threadexchange` board: one ordered message list and one
finished event per subsystem, plus the control flags.  The locks guard the
lists; in this single-call static model they have no further content. -/
structure Board where
  fluid : List String
  img : List String
  illu : List String
  fluid_finished : Bool
  img_finished : Bool
  illu_finished : Bool
  flags : Flags
deriving DecidableEq

/-- `self.txchange[target]`: the message list of a subsystem. -/
def Board.log (b : Board) : Target → List String
  | .fluid => b.fluid
  | .img => b.img
  | .illu => b.illu

/-- `send_message` (lines 227-229): append a message to the calling
handler's own channel under its lock. -/
def Board.post (b : Board) : Target → String → Board
  | .fluid, m => { b with fluid := b.fluid ++ [m] }
  | .img, m => { b with img := b.img ++ [m] }
  | .illu, m => { b with illu := b.illu ++ [m] }

/-- `self.txchange[target + '_finished'].is_set()`. -/
def Board.finished (b : Board) : Target → Bool
  | .fluid => b.fluid_finished
  | .img => b.img_finished
  | .illu => b.illu_finished

/-- `self.txchange[target + '_finished'].set()`. -/
def Board.setFinished (b : Board) : Target → Board
  | .fluid => { b with fluid_finished := true }
  | .img => { b with img_finished := true }
  | .illu => { b with illu_finished := true }

/-- The stop condition of the `wait_xchange` polling loop (lines 216-219):
any of abort, abort-protocol or pause-protocol is set. -/
def stopFlagSet (fl : Flags) : Bool :=
  fl.abort_flag || fl.abort_protocol_flag || fl.pause_protocol_flag

/-- The message test of `wait_xchange` (lines 221-222): the target channel
contains, as a whole list element (Python `in` on a list), either the
message itself or the string `target + ' ' + message`. -/
def waitCondition (log : List String) (target message : String) : Bool :=
  log.contains message || log.contains (target ++ " " ++ message)

/-- `wait_xchange(target, message)` (lines 214-225) on a static view of the
board.  The result is `(busy, sleeps)`: `busy = false` means the loop ended
because the message was found (the `Received` outcome), `busy = true` means
it ended because a stop flag was set; `sleeps` counts executed
`time.sleep(.05)` calls before returning.  `none` means the loop has not
terminated within `fuel` iterations (with a static board it then never
does). -/
def wait_xchange (fl : Flags) (log : List String) (target message : String) :
    ℕ → Option (Bool × ℕ)
  | 0 => none
  | fuel + 1 =>
    if stopFlagSet fl then some (true, 0)
    else if waitCondition log target message then some (false, 0)
    else (wait_xchange fl log target message fuel).map (fun p => (p.1, p.2 + 1))

/-- One protocol entry as dispatched by `run_protocol` (lines 182-194):
the `$type` values `signal`, `wait for signal`, `incubate`; every other
type is delegated to `execute_protocol_entry` (a hardware call that does
not touch the board). -/
inductive PStep where
  | signal (value : String)
  | wait_for_signal (target : Target) (value : String)
  | incubate (duration : ℚ)
  | hardware
deriving DecidableEq

/-- `housekeeping` (lines 204-213): `false` (do not go on) when
abort-protocol or abort is set (after calling `abort_execution`), or when
pause-protocol is set (after calling `pause_execution`); `true` otherwise. -/
def housekeeping_goon (fl : Flags) : Bool :=
  if fl.abort_protocol_flag || fl.abort_flag then false
  else if fl.pause_protocol_flag then false
  else true

/-- The step loop of `run_protocol` (lines 180-203) over a given list of
protocol entries, on a static view of the flags and of the peer channels:
dispatch each entry by kind, then run housekeeping; on a housekeeping stop
post `'Ending.'` and return; an incubate entry returns directly (without
housekeeping) when an abort flag is set and the duration has not yet
elapsed; when the loop exhausts all entries, set the handler's finished
event.  `none` models a `wait for signal` that never completes (the static
board never changes). -/
def run_protocol_loop (fl : Flags) (tgt : Target) : List PStep → Board → Option Board
  | [], b => some (b.setFinished tgt)
  | step :: rest, b =>
    match step with
    | .signal v =>
      let b1 := b.post tgt v
      if housekeeping_goon fl then run_protocol_loop fl tgt rest b1
      else some (b1.post tgt "Ending.")
    | .wait_for_signal t v =>
      if stopFlagSet fl || waitCondition (b.log t) t.name v then
        if housekeeping_goon fl then run_protocol_loop fl tgt rest b
        else some (b.post tgt "Ending.")
      else none
    | .incubate d =>
      if (fl.abort_flag || fl.abort_protocol_flag) && decide (0 < d) then some b
      else if housekeeping_goon fl then run_protocol_loop fl tgt rest b
      else some (b.post tgt "Ending.")
    | .hardware =>
      if housekeeping_goon fl then run_protocol_loop fl tgt rest b
      else some (b.post tgt "Ending.")

/-- The `system is None` branch of `AbstractSystemHandler.run`
(lines 150-152): immediately set the handler's own finished event and
return, touching nothing else. -/
def run_unbound (tgt : Target) (b : Board) : Board := b.setFinished tgt

/-- `poll_protocol_finished` (lines 243-248 and 394-399): all values of the
`threadexchange` whose key contains `'_finished'` — exactly the three
per-subsystem finished events — are set. -/
def poll_protocol_finished (b : Board) : Bool :=
  b.fluid_finished && b.img_finished && b.illu_finished

/-! ### run_protocol start-index determination (lines 168-179) -/

/-- Python exceptions relevant to `run_protocol`. -/
inductive PyError where
  | typeError
  | valueError
deriving DecidableEq

/-- Python `substring in msg` on strings: containment of the character
sequence. -/
def strContainsSub (msg sub : String) : Bool := decide (List.IsInfix sub.data msg.data)

/-- `search_message` (lines 231-238): the first message of the handler's
own channel containing the substring, else `None`. -/
def search_message (messages : List String) (sub : String) : Option String :=
  messages.find? (fun m => strContainsSub m sub)

/-- Lines 172-176 of `run_protocol`: find a `'start entry:'` marker in the
handler's own channel and parse the rest of that message as an int
(`int(msg[len('start entry:'):].strip())`, `ValueError` on garbage);
default 0 when there is no marker. -/
def parse_start_entry (log : List String) : Except PyError ℤ :=
  match search_message log "start entry:" with
  | some msg =>
    match ((msg.drop "start entry:".length).trim).toInt? with
    | some n => .ok n
    | none => .error .valueError
  | none => .ok 0

/-- `run_protocol` (lines 168-203) as shipped.  After determining
`start_entry`, line 179 executes
`for i, step in enumerate(start_entry, self.protocol['protocol_entries'])`:
`enumerate`'s first argument must be iterable, but `start_entry` is an
`int`, so Python raises `TypeError: 'int' object is not iterable` before
any step is dispatched and before any board mutation.  The error
propagates out of the method (no `try` surrounds the loop). -/
def run_protocol (b : Board) (tgt : Target) : Except PyError Board :=
  match parse_start_entry (b.log tgt) with
  | .error e => .error e
  | .ok _ => .error .typeError

/-! ### The class-level threadexchange attribute (lines 317-357) -/

/-- The address of the `threadexchange` dictionary created once when the
class body of `ProtocolOrchestrator` is executed (lines 317-336). -/
def classTxAddr : ℕ := 0

/-- A heap of board objects addressed by identity. -/
structure Heap where
  boards : ℕ → Board

/-- In-place mutation of the board object at address `a`. -/
def Heap.update (h : Heap) (a : ℕ) (f : Board → Board) : Heap :=
  ⟨fun x => if x = a then f (h.boards x) else h.boards x⟩

/-- A `ProtocolOrchestrator` instance: `instance_tx` is the would-be
per-instance `__dict__` entry for the name `threadexchange` — `__init__`
(lines 339-357) never assigns `self.threadexchange`, so it stays absent —
together with the `threadexchange` references handed to the three handlers
it constructs. -/
structure ProtocolOrchestrator where
  instance_tx : Option ℕ
  fluid_handler_tx : ℕ
  imaging_handler_tx : ℕ
  illumination_handler_tx : ℕ
deriving DecidableEq

/-- Python attribute lookup for `self.threadexchange`: the instance
`__dict__` entry if present, otherwise the class attribute. -/
def attr_tx (o : ProtocolOrchestrator) : ℕ := o.instance_tx.getD classTxAddr

/-- `ProtocolOrchestrator.__init__` (lines 339-357): construct the three
handlers, passing each `self.threadexchange` (which resolves to the class
attribute); the heap of existing board objects is not touched — no message
list or flag is reset. -/
def orchestrator_init (h : Heap) : ProtocolOrchestrator × Heap :=
  let o : ProtocolOrchestrator :=
    { instance_tx := none, fluid_handler_tx := 0,
      imaging_handler_tx := 0, illumination_handler_tx := 0 }
  let tx := attr_tx o
  let o2 : ProtocolOrchestrator :=
    { o with
      fluid_handler_tx := tx, imaging_handler_tx := tx,
      illumination_handler_tx := tx }
  (o2, h)

/-- `start_protocol`-style posting through one instance (lines 364-377):
mutate the board object that `self.threadexchange` resolves to. -/
def orchestrator_post (h : Heap) (o : ProtocolOrchestrator) (tgt : Target)
    (msg : String) : Heap :=
  h.update (attr_tx o) (fun b => b.post tgt msg)

/-- `abort_protocol` (lines 379-380): set the abort-protocol event of the
board object that `self.threadexchange` resolves to. -/
def orchestrator_abort_protocol (h : Heap) (o : ProtocolOrchestrator) : Heap :=
  h.update (attr_tx o)
    (fun b => { b with flags := { b.flags with abort_protocol_flag := true } })


/-! ### Remaining fixtures and specification-side definitions -/

/-- All control flags clear. -/
def flagsClear : Flags := ⟨false, false, false, false, false⟩

/-- Only the abort-protocol flag set (the state after
`ProtocolOrchestrator.abort_protocol()`). -/
def flagsAbort : Flags := { flagsClear with abort_protocol_flag := true }

/-- An empty board: no messages, nothing finished, all flags clear. -/
def boardEmpty : Board := ⟨[], [], [], false, false, false, flagsClear⟩

/-- A board on which the imaging and illumination subsystems have finished
but the fluid subsystem has not. -/
def boardOthersDone : Board := ⟨[], [], [], false, true, true, flagsClear⟩

/-- A `LegacyArchitecture` state: the unit-test protocol with the third
test tubing configuration, an empty tubing stack. -/
def archWitness : LegacyArchitecture := ⟨testProtocol, tcTest3, 3, []⟩

/-- The state after `_assemble_tubing_stack(0)` on `archWitness`. -/
def archWitness2 : LegacyArchitecture :=
  { archWitness with tubing_stack :=
      [(0, [(0, 500), (1, 100)]), (1, [(1, 100), (0, 300)]), (2, []), (3, [(3, 200)])] }

/-- The requested volume carried by one protocol entry (inject volume,
flush factor, 0 for the rest); the claims' nonnegativity hypotheses are
stated with it. -/
def entryVol : PEntry → ℚ
  | .inject _ v => v
  | .flush ff => ff
  | .other => 0

/-- The positional variant of the inner loop: identical control flow to
`innerLoop`, but each emitted tuple records the cumulative-array position
`cum_idx` instead of `reservoirs[cum_idx]`, and the final `vol_rest` is
also returned.  Used only as a proof device; `innerLoop` is related to it
by mapping positions through the reservoir array. -/
def innerPos : List ℕ → List ℚ → ℚ → List (ℕ × ℚ) × List ℚ × ℚ
  | [], cum, volRest => ([], cum, volRest)
  | j :: js, cum, volRest =>
    let volStep := min volRest (cum.getD j 0)
    if volStep = 0 then innerPos js cum volRest
    else
      let res := innerPos js (cum.map (fun c => c - volStep)) (volRest - volStep)
      ((j, volStep) :: res.1, res.2)

/-- Sum of the volumes an emission list attributes to position `j`. -/
def posSum (es : List (ℕ × ℚ)) (j : ℕ) : ℚ :=
  (es.map (fun e => if e.1 = j then e.2 else 0)).sum

/-- Prefix sum of a volume list: total volume of positions before `j`. -/
def preVol (l : List ℚ) (j : ℕ) : ℚ := (l.take j).sum

/-- Inclusive prefix sum: total volume of positions up to and including
`j` (the value of `volumes_cum[j]` before any consumption). -/
def cumVol (l : List ℚ) (j : ℕ) : ℚ := (l.take (j + 1)).sum

/-- How much of position `j`'s volume has been consumed once the total
consumption is `c`: the part of `c` falling into the window
`[preVol j, cumVol j]`. -/
def clampAt (l : List ℚ) (c : ℚ) (j : ℕ) : ℚ :=
  min (l.getD j 0) (max 0 (c - preVol l j))

/-- The cumulative-volume array after total consumption `c`: numpy's
repeated uniform subtraction keeps `volumes_cum` of this shape. -/
def shiftCum (l : List ℚ) (c : ℚ) : List ℚ := (cumsum l).map (fun x => x - c)


/-! ### Theorems -/

/-- Claim C2, counterexample.  For the scenario tubing graph
(`A=1 → pump` dead volume 100, `pump → sample` 50, everything else 0) and
steps `[inject(A,500), inject(B=2,200)]`, the stack entry computed for
step 0 is not the single tuple list `[(A, 650)]`. -/
theorem scenario_step0_not_A650 :
    (assembleTubingStack tcScenario 3 stepsScenario).map (fun st => st.getD 0 [])
      ≠ some [(1, 650)] := by
  with_unfolding_all decide

/-- Claim C2, amended.  For the scenario tubing graph and steps
`[inject(A,500), inject(B,200)]`, the scheduler's stack entry for step 0 is
`[(A, 500), (B, 150)]`: the 500 µl requested from A are drawn from A, and
the 150 µl dead-volume front-load is drawn from the next reagent B, not
from A (step 1 then resolves as `[(B, 50), (flushbuffer, 50)]`). -/
theorem scenario_stack_value :
    assembleTubingStack tcScenario 3 stepsScenario =
      some [[(1, 500), (2, 150)], [(2, 50), (3, 50)]] := by
  with_unfolding_all decide

/-- Claim C8, counterexample.  For the remaining step sequence
`[inject(1, -100)]` with the all-zero tubing configuration, the scheduler
does not clamp: no positive entry remains in the cumulative-volume array,
so `np.argwhere(volumes_cum > 0).flatten()[0]` raises an uncaught
`IndexError` — an error is raised, contradicting the claim. -/
theorem negative_volume_raises :
    assembleTubingStack tcZero 3 [.inject 1 (-100)] = none ∧
      entryVol (.inject 1 (-100)) < 0 := by
  with_unfolding_all decide

/-- Claim C8, amended.  Negative requested volumes are neither clamped to a
minimum positive unit nor rejected: the scheduler can emit a
`(reservoir, volume)` tuple with strictly negative volume (here
`(3, -100)`), and on other negative inputs it raises an `IndexError`
(see the counterexample). -/
theorem negative_volume_not_clamped :
    assembleTubingStack tcFbDead 3 [.inject 1 (-100)] = some [[(3, -100)]] ∧
      (-100 : ℚ) < 0 := by
  with_unfolding_all decide

/-- Claim C1, counterexample.  Volume conservation fails on the code as
universally quantified: (a) for the nonnegative-volume input
`[inject(1,100), inject(2,50)]` with dead volume 500 on `1 → pump`, the
computation raises an uncaught `IndexError` (no stack exists, while
reservoir 1's requested total is 100); (b) for a negative requested
volume, the computed stack draws 0 from reservoir 1 although its requested
total is −100 and step 0 is its last use; (c) for a negative dead volume,
the stack draws 50 from reservoir 1 although its requested total is 100
and step 0 is its last use. -/
theorem conservation_counterexample :
    (assembleTubingStack tcBigDead 3 [.inject 1 100, .inject 2 50] = none ∧
      requestedTotal tcBigDead 3 [.inject 1 100, .inject 2 50] 1 = 100) ∧
    (assembleTubingStack tcFbDead 3 [.inject 1 (-100)] = some [[(3, -100)]] ∧
      drawnRes [(3, -100)] 1 = 0 ∧
      requestedTotal tcFbDead 3 [.inject 1 (-100)] 1 = -100) ∧
    (assembleTubingStack tcNegDead 3 [.inject 1 100] = some [[(1, 50)]] ∧
      drawnRes [(1, 50)] 1 = 50 ∧
      requestedTotal tcNegDead 3 [.inject 1 100] 1 = 100) := by
  with_unfolding_all decide

/-- Claim C5.  (1) `run()` of a handler with no bound system immediately
sets that handler's finished event and touches nothing else (no step is
executed, the logs and the other finished events are unchanged);
(2) `poll_protocol_finished` is true exactly when all three per-subsystem
finished events are set; (3) hence a protocol omitting one subsystem still
reaches `poll_protocol_finished() == true` once every other subsystem's
finished event is set. -/
theorem unbound_run_and_poll :
    (∀ (tgt : Target) (b : Board),
      (run_unbound tgt b).finished tgt = true ∧
      (∀ t, (run_unbound tgt b).log t = b.log t) ∧
      (∀ t, t ≠ tgt → (run_unbound tgt b).finished t = b.finished t)) ∧
    (∀ b : Board, poll_protocol_finished b = true ↔
      (b.fluid_finished = true ∧ b.img_finished = true ∧ b.illu_finished = true)) ∧
    (∀ (b : Board) (tgt : Target), (∀ t, t ≠ tgt → b.finished t = true) →
      poll_protocol_finished (run_unbound tgt b) = true) := by
  refine ⟨?_, ?_, ?_⟩
  · intro tgt b
    refine ⟨?_, ?_, ?_⟩
    · cases tgt <;> rfl
    · intro t; cases tgt <;> cases t <;> rfl
    · intro t ht; cases tgt <;> cases t <;> first | rfl | exact absurd rfl ht
  · intro b
    simp [poll_protocol_finished, Bool.and_eq_true, and_assoc]
  · intro b tgt h
    have hf := fun t ht => h t ht
    cases tgt <;>
      simp [poll_protocol_finished, run_unbound, Board.setFinished] <;>
      constructor <;>
      first
        | exact hf .fluid (by simp)
        | exact hf .img (by simp)
        | exact hf .illu (by simp)

/-- Claim C5, witness: on a board where imaging and illumination are
finished, the unbound fluid handler's `run()` brings
`poll_protocol_finished` to true. -/
theorem unbound_run_and_poll_witness :
    poll_protocol_finished (run_unbound .fluid boardOthersDone) = true :=
  unbound_run_and_poll.2.2 boardOthersDone .fluid
    (by intro t ht; cases t <;> first | rfl | exact absurd rfl ht)

/-- Claim C7, counterexample.  With the abort-protocol flag set and the
awaited message already present as a whole element of the target log,
`wait_xchange` does return immediately (zero sleeps) — but with the loop
still `busy` (the flag outcome, i.e. Aborted), not the Received outcome,
so the claim's "for every state of the control flags" fails. -/
theorem wait_present_abort_counterexample :
    waitCondition ["round 1 done"] "img" "round 1 done" = true ∧
    wait_xchange flagsAbort ["round 1 done"] "img" "round 1 done" 5 = some (true, 0) ∧
    (true, 0) ≠ (false, 0) := by
  with_unfolding_all decide

/-- Claim C7, amended.  If no stop flag (abort / abort-protocol /
pause-protocol) is set and the awaited message is already present,
`wait_xchange` returns the Received outcome (`busy = false`) immediately,
with zero `time.sleep` calls; if a stop flag is set it also returns
immediately (zero sleeps) but with the corresponding flag outcome instead
of Received. -/
theorem wait_immediate (fl : Flags) (log : List String) (target message : String)
    (fuel : ℕ) (hf : 0 < fuel) :
    (stopFlagSet fl = false → waitCondition log target message = true →
      wait_xchange fl log target message fuel = some (false, 0)) ∧
    (stopFlagSet fl = true →
      wait_xchange fl log target message fuel = some (true, 0)) := by
  obtain ⟨n, rfl⟩ : ∃ n, fuel = n + 1 := ⟨fuel - 1, (Nat.succ_pred_eq_of_pos hf).symm⟩
  constructor
  · intro h1 h2
    simp [wait_xchange, h1, h2]
  · intro h1
    simp [wait_xchange, h1]

/-- Claim C7, witness: with clear flags and the message present,
`wait_xchange` returns Received with zero sleeps. -/
theorem wait_immediate_witness :
    wait_xchange flagsClear ["fluid round 1 done"] "fluid" "round 1 done" 1 =
      some (false, 0) :=
  (wait_immediate flagsClear ["fluid round 1 done"] "fluid" "round 1 done" 1
    (by decide)).1 (by decide) (by with_unfolding_all decide)

/-- Helper for C10: on a static board with clear stop flags and the wait
condition false, the polling loop never returns. -/
theorem wait_never_of_not_found (fl : Flags) (log : List String)
    (target message : String) (hfl : stopFlagSet fl = false)
    (hc : waitCondition log target message = false) :
    ∀ fuel, wait_xchange fl log target message fuel = none := by
  intro fuel
  induction fuel with
  | zero => rfl
  | succ n ih => simp [wait_xchange, hfl, hc, ih]

/-- Claim C10.  With clear stop flags, a wait on `(target, message)`
completes as Received exactly when the target log contains — as a whole
element, Python `in` on a list — either `message` itself or
`target + ' ' + message`.  Concretely: a wait for
`('fluid', 'round 1 done')` is satisfied by the posted message
`'fluid round 1 done'`, but not by `'imaging round 1 done'` even though it
contains `'round 1 done'` as a substring. -/
theorem wait_received_iff_member (fl : Flags) (log : List String)
    (target message : String) (fuel : ℕ) (hf : 0 < fuel)
    (hfl : stopFlagSet fl = false) :
    (wait_xchange fl log target message fuel = some (false, 0) ↔
      (message ∈ log ∨ (target ++ " " ++ message) ∈ log)) ∧
    waitCondition ["fluid round 1 done"] "fluid" "round 1 done" = true ∧
    ("imaging " ++ "round 1 done" = "imaging round 1 done" ∧
      waitCondition ["imaging round 1 done"] "fluid" "round 1 done" = false) := by
  refine ⟨?_, by with_unfolding_all decide, by with_unfolding_all decide⟩
  constructor
  · intro hres
    by_cases hc : waitCondition log target message = true
    · simpa [waitCondition] using hc
    · rw [wait_never_of_not_found fl log target message hfl
        (Bool.not_eq_true _ ▸ hc)] at hres
      exact absurd hres (by simp)
  · intro hmem
    have hc : waitCondition log target message = true := by
      simpa [waitCondition] using hmem
    exact (wait_immediate fl log target message fuel hf).1 hfl hc

/-- Claim C10, witness: with clear flags, a wait for
`('fluid', 'round 1 done')` on the log `['fluid round 1 done']` completes
as Received. -/
theorem wait_received_iff_member_witness :
    wait_xchange flagsClear ["fluid round 1 done"] "fluid" "round 1 done" 3 =
      some (false, 0) :=
  ((wait_received_iff_member flagsClear ["fluid round 1 done"] "fluid"
    "round 1 done" 3 (by decide) rfl).1).mpr (by with_unfolding_all decide)


/-- Claim C4.  Once the abort-protocol flag is set, the protocol step loop
of every executor returns (terminates, rather than blocking or running
further steps) at the very first step — whether that step is a
wait-for-signal (the poll loop exits at once on the flag), an incubate
(the in-sleep flag check returns directly), or any other kind (the
post-step housekeeping check returns) — and no per-subsystem finished
event is changed, in particular the executor's own finished event is not
set. -/
theorem abort_propagation (fl : Flags) (tgt : Target) (steps : List PStep)
    (b : Board) (habort : fl.abort_protocol_flag = true) (hne : steps ≠ []) :
    ∃ b2, run_protocol_loop fl tgt steps b = some b2 ∧
      b2.fluid_finished = b.fluid_finished ∧
      b2.img_finished = b.img_finished ∧
      b2.illu_finished = b.illu_finished := by
  have hk : housekeeping_goon fl = false := by
    simp [housekeeping_goon, habort]
  have hs : stopFlagSet fl = true := by
    simp [stopFlagSet, habort]
  cases steps with
  | nil => exact absurd rfl hne
  | cons step rest =>
    cases step with
    | signal v =>
      refine ⟨(b.post tgt v).post tgt "Ending.",
        by simp [run_protocol_loop, hk], ?_, ?_, ?_⟩ <;>
        cases tgt <;> simp [Board.post]
    | wait_for_signal t v =>
      refine ⟨b.post tgt "Ending.",
        by simp [run_protocol_loop, hs, hk], ?_, ?_, ?_⟩ <;>
        cases tgt <;> simp [Board.post]
    | incubate d =>
      by_cases hd : (0 : ℚ) < d
      · exact ⟨b, by simp [run_protocol_loop, habort, hd], rfl, rfl, rfl⟩
      · refine ⟨b.post tgt "Ending.",
          by simp [run_protocol_loop, habort, hd, hk], ?_, ?_, ?_⟩ <;>
          cases tgt <;> simp [Board.post]
    | hardware =>
      refine ⟨b.post tgt "Ending.",
        by simp [run_protocol_loop, hk], ?_, ?_, ?_⟩ <;>
        cases tgt <;> simp [Board.post]

/-- Claim C4, witness: with the abort-protocol flag set, a one-step
hardware protocol returns without setting any finished event. -/
theorem abort_propagation_witness :
    ∃ b2, run_protocol_loop flagsAbort .fluid [.hardware] boardEmpty = some b2 ∧
      b2.fluid_finished = boardEmpty.fluid_finished ∧
      b2.img_finished = boardEmpty.img_finished ∧
      b2.illu_finished = boardEmpty.illu_finished :=
  abort_propagation flagsAbort .fluid [.hardware] boardEmpty rfl (by simp)

/-- Claim C3.  `run_protocol` as shipped never executes any protocol step:
after determining the start entry it reaches
`for i, step in enumerate(start_entry, self.protocol['protocol_entries'])`
(line 179), whose arguments are swapped — `enumerate` requires an iterable
first argument but receives the `int` start index — so Python raises
`TypeError` (or `ValueError` earlier, if a `'start entry:'` marker has an
unparsable tail) for every board state; on an empty channel it is exactly
the `TypeError`.  No step before or after the start index is ever
dispatched and no board mutation happens. -/
theorem run_protocol_always_raises :
    (∀ (b : Board) (tgt : Target), ∃ e, run_protocol b tgt = .error e) ∧
    run_protocol boardEmpty .fluid = .error .typeError := by
  constructor
  · intro b tgt
    cases hp : parse_start_entry (b.log tgt) with
    | error e => exact ⟨e, by simp [run_protocol, hp]⟩
    | ok n => exact ⟨.typeError, by simp [run_protocol, hp]⟩
  · rfl

/-- Claim C9.  The `threadexchange` board is a class-level attribute:
(1) `__init__` leaves the heap of board objects untouched — previously
posted messages and previously set flags stay in place; (2) every pair of
instances resolves `self.threadexchange` to the same object, and each
handler of each instance holds that same object; (3) a message posted
through one instance is observed through another instance's handler;
(4) a flag set through one instance is observed through another
instance's handler. -/
theorem threadexchange_shared :
    (∀ h : Heap, (orchestrator_init h).2 = h) ∧
    (∀ h1 h2 : Heap,
      attr_tx (orchestrator_init h1).1 = attr_tx (orchestrator_init h2).1 ∧
      (orchestrator_init h1).1.fluid_handler_tx = attr_tx (orchestrator_init h2).1 ∧
      (orchestrator_init h1).1.imaging_handler_tx = attr_tx (orchestrator_init h2).1 ∧
      (orchestrator_init h1).1.illumination_handler_tx = attr_tx (orchestrator_init h2).1) ∧
    (∀ (h : Heap) (tgt : Target) (msg : String),
      ((orchestrator_post h (orchestrator_init h).1 tgt msg).boards
          (orchestrator_init h).1.imaging_handler_tx).log tgt
        = (h.boards classTxAddr).log tgt ++ [msg]) ∧
    (∀ h : Heap,
      ((orchestrator_abort_protocol h (orchestrator_init h).1).boards
          (orchestrator_init h).1.illumination_handler_tx).flags.abort_protocol_flag
        = true) := by
  refine ⟨fun h => rfl, fun h1 h2 => ⟨rfl, rfl, rfl, rfl⟩, ?_, ?_⟩
  · intro h tgt msg
    cases tgt <;>
      simp [orchestrator_post, orchestrator_init, attr_tx, Heap.update, classTxAddr,
        Board.post, Board.log]
  · intro h
    simp [orchestrator_abort_protocol, orchestrator_init, attr_tx, Heap.update,
      classTxAddr]

/-- Claim C6.  `_assemble_tubing_stack` reads only the protocol, the
tubing configuration and the flush-buffer name, never the previously
stored stack: running it a second time for the same start index returns
the same state unchanged, and its result does not depend on whatever
`tubing_stack` held before the call. -/
theorem assemble_recompute_idempotent (st : LegacyArchitecture) (i : ℕ)
    (st2 : LegacyArchitecture)
    (hok : assemble_tubing_stack_method st i = some st2) :
    assemble_tubing_stack_method st2 i = some st2 ∧
    ∀ t, (assemble_tubing_stack_method { st with tubing_stack := t } i).map
           LegacyArchitecture.tubing_stack
         = (assemble_tubing_stack_method st i).map LegacyArchitecture.tubing_stack := by
  unfold assemble_tubing_stack_method at hok
  cases hcol : assembleTubingStack st.tubing_config st.flushbuffer_a (st.protocol.drop i) with
  | none => rw [hcol] at hok; exact absurd hok (by simp)
  | some col =>
    rw [hcol] at hok
    have hok2 : ({ st with tubing_stack :=
        (List.range' i (st.protocol.drop i).length).zip col } : LegacyArchitecture) = st2 := by
      injection hok
    subst hok2
    constructor
    · have h1 : assemble_tubing_stack_method
          { st with tubing_stack := (List.range' i (st.protocol.drop i).length).zip col } i
          = (assembleTubingStack st.tubing_config st.flushbuffer_a (st.protocol.drop i)).map
            (fun col2 => { st with tubing_stack :=
              (List.range' i (st.protocol.drop i).length).zip col2 }) := rfl
      rw [h1, hcol]
      rfl
    · intro t
      have h1 : assemble_tubing_stack_method { st with tubing_stack := t } i
          = (assembleTubingStack st.tubing_config st.flushbuffer_a (st.protocol.drop i)).map
            (fun col2 => { st with tubing_stack :=
              (List.range' i (st.protocol.drop i).length).zip col2 }) := rfl
      have h2 : assemble_tubing_stack_method st i
          = (assembleTubingStack st.tubing_config st.flushbuffer_a (st.protocol.drop i)).map
            (fun col2 => { st with tubing_stack :=
              (List.range' i (st.protocol.drop i).length).zip col2 }) := rfl
      rw [h1, h2]

/-- Claim C6, witness: recomputing the stack of the third unit-test
configuration at start index 0 reproduces the stored state unchanged. -/
theorem assemble_recompute_idempotent_witness :
    assemble_tubing_stack_method archWitness2 0 = some archWitness2 :=
  (assemble_recompute_idempotent archWitness 0 archWitness2
    (by with_unfolding_all rfl)).1


/-! ### Volume conservation: prefix-sum and first-index lemmas -/

/-- Out-of-range or member reads of a nonnegative volume list are
nonnegative. -/
theorem getD_nonneg (l : List ℚ) (hV : ∀ x ∈ l, 0 ≤ x) (j : ℕ) : 0 ≤ l.getD j 0 := by
  rcases lt_or_le j l.length with h | h
  · rw [List.getD_eq_getElem l 0 h]
    exact hV _ (List.getElem_mem h)
  · rw [List.getD_eq_default l 0 h]

theorem preVol_zero (l : List ℚ) : preVol l 0 = 0 := rfl

theorem preVol_succ (l : List ℚ) (j : ℕ) :
    preVol l (j + 1) = preVol l j + l.getD j 0 := by
  unfold preVol
  rcases lt_or_le j l.length with h | h
  · rw [List.take_succ, List.sum_append, List.getD_eq_getElem l 0 h]
    simp [List.getElem?_eq_getElem h]
  · rw [List.take_of_length_le (le_trans h (Nat.le_succ j)), List.take_of_length_le h,
      List.getD_eq_default l 0 h, add_zero]

theorem cumVol_eq_preVol (l : List ℚ) (j : ℕ) : cumVol l j = preVol l (j + 1) := rfl

theorem preVol_mono (l : List ℚ) (hV : ∀ x ∈ l, 0 ≤ x) : Monotone (preVol l) :=
  monotone_nat_of_le_succ (fun j => by
    rw [preVol_succ]
    exact le_add_of_nonneg_right (getD_nonneg l hV j))

theorem preVol_nonneg (l : List ℚ) (hV : ∀ x ∈ l, 0 ≤ x) (j : ℕ) :
    0 ≤ preVol l j := by
  have := preVol_mono l hV (Nat.zero_le j)
  rwa [preVol_zero] at this

theorem preVol_le_sum (l : List ℚ) (hV : ∀ x ∈ l, 0 ≤ x) (j : ℕ) :
    preVol l j ≤ l.sum := by
  have hsplit := List.sum_take_add_sum_drop l j
  have hdrop : 0 ≤ (l.drop j).sum :=
    List.sum_nonneg (fun x hx => hV x (List.drop_subset j l hx))
  unfold preVol
  linarith

theorem preVol_length (l : List ℚ) : preVol l l.length = l.sum := by
  unfold preVol
  rw [List.take_length]

theorem cumsum_getD (l : List ℚ) {j : ℕ} (h : j < l.length) :
    (cumsum l).getD j 0 = cumVol l j := by
  unfold cumsum
  rw [List.getD_eq_getElem _ 0 (by simpa using h)]
  simp [cumVol]

theorem shiftCum_length (l : List ℚ) (c : ℚ) : (shiftCum l c).length = l.length := by
  simp [shiftCum, cumsum]

theorem shiftCum_getD (l : List ℚ) (c : ℚ) {j : ℕ} (h : j < l.length) :
    (shiftCum l c).getD j 0 = cumVol l j - c := by
  unfold shiftCum
  rw [List.getD_eq_getElem _ 0 (by simpa [cumsum] using h)]
  simp [cumsum, cumVol]

theorem shiftCum_map_sub (l : List ℚ) (c a : ℚ) :
    (shiftCum l c).map (fun x => x - a) = shiftCum l (c + a) := by
  unfold shiftCum
  rw [List.map_map]
  exact List.map_congr_left (fun x _ => by simp [Function.comp]; ring)

theorem shiftCum_zero (l : List ℚ) : shiftCum l 0 = cumsum l := by
  simp [shiftCum]

theorem argfirst_some (p : ℚ → Bool) :
    ∀ (xs : List ℚ) (k : ℕ), argfirst p xs = some k →
      k < xs.length ∧ p (xs.getD k 0) = true ∧ ∀ i, i < k → p (xs.getD i 0) = false := by
  intro xs
  induction xs with
  | nil => intro k h; simp [argfirst] at h
  | cons c cs ih =>
    intro k h
    by_cases hc : p c
    · simp [argfirst, hc] at h
      subst h
      exact ⟨Nat.succ_pos _, by simpa using hc, fun i hi => absurd hi (Nat.not_lt_zero i)⟩
    · simp [argfirst, hc] at h
      obtain ⟨k2, hk2, rfl⟩ := h
      obtain ⟨h1, h2, h3⟩ := ih k2 hk2
      refine ⟨by simpa using h1, by simpa using h2, ?_⟩
      intro i hi
      cases i with
      | zero => simpa using hc
      | succ i2 => simpa using h3 i2 (Nat.lt_of_succ_lt_succ hi)

theorem argfirst_none (p : ℚ → Bool) :
    ∀ xs : List ℚ, argfirst p xs = none →
      ∀ i, i < xs.length → p (xs.getD i 0) = false := by
  intro xs
  induction xs with
  | nil => intro _ i hi; simp at hi
  | cons c cs ih =>
    intro h i hi
    by_cases hc : p c
    · simp [argfirst, hc] at h
    · simp [argfirst, hc] at h
      cases i with
      | zero => simpa using hc
      | succ i2 => simpa using ih h i2 (by simpa using hi)


/-! ### Volume conservation: clamp lemmas -/

theorem clampAt_zero (l : List ℚ) (hV : ∀ x ∈ l, 0 ≤ x) (j : ℕ) :
    clampAt l 0 j = 0 := by
  unfold clampAt
  have h0 := preVol_nonneg l hV j
  rw [max_eq_left (by linarith)]
  exact min_eq_right (getD_nonneg l hV j)

theorem clampAt_full (l : List ℚ) (hV : ∀ x ∈ l, 0 ≤ x) {c : ℚ} {j : ℕ}
    (h : preVol l (j + 1) ≤ c) : clampAt l c j = l.getD j 0 := by
  unfold clampAt
  have hstep := preVol_succ l j
  have h1 : l.getD j 0 ≤ c - preVol l j := by linarith
  have h2 : (0 : ℚ) ≤ c - preVol l j := le_trans (getD_nonneg l hV j) h1
  rw [max_eq_right h2]
  exact min_eq_left h1

theorem clampAt_before (l : List ℚ) (hV : ∀ x ∈ l, 0 ≤ x) {c : ℚ} {j : ℕ}
    (h : c ≤ preVol l j) : clampAt l c j = 0 := by
  unfold clampAt
  rw [max_eq_left (by linarith)]
  exact min_eq_right (getD_nonneg l hV j)

theorem clampAt_mid (l : List ℚ) {c : ℚ} {j : ℕ}
    (h1 : preVol l j ≤ c) (h2 : c ≤ preVol l (j + 1)) :
    clampAt l c j = c - preVol l j := by
  unfold clampAt
  have hstep := preVol_succ l j
  rw [max_eq_right (by linarith)]
  exact min_eq_right (by linarith)

/-- Localization: a consumption move staying inside position `s`'s window
changes only position `s`'s clamp, by exactly the move. -/
theorem clampAt_delta (l : List ℚ) (hV : ∀ x ∈ l, 0 ≤ x) {c1 c2 : ℚ} {s : ℕ}
    (hl1 : preVol l s ≤ c1) (hu1 : c1 ≤ cumVol l s)
    (hl2 : preVol l s ≤ c2) (hu2 : c2 ≤ cumVol l s) :
    ∀ j, clampAt l c2 j - clampAt l c1 j = if s = j then c2 - c1 else 0 := by
  intro j
  rcases lt_trichotomy j s with h | h | h
  · have hxy : preVol l (j + 1) ≤ preVol l s := preVol_mono l hV h
    rw [clampAt_full l hV (le_trans hxy hl1), clampAt_full l hV (le_trans hxy hl2),
      if_neg (by omega)]
    ring
  · subst h
    rw [clampAt_mid l hl1 (by rw [← cumVol_eq_preVol]; exact hu1),
      clampAt_mid l hl2 (by rw [← cumVol_eq_preVol]; exact hu2), if_pos rfl]
    ring
  · have hxy : preVol l (s + 1) ≤ preVol l j := preVol_mono l hV h
    rw [cumVol_eq_preVol] at hu1 hu2
    rw [clampAt_before l hV (le_trans hu1 hxy), clampAt_before l hV (le_trans hu2 hxy),
      if_neg (by omega)]
    ring

/-! ### Volume conservation: inner-loop lemmas -/

/-- The literal inner loop is the positional inner loop with each emitted
position mapped through the reservoir array. -/
theorem innerLoop_eq_innerPos (res : List ℤ) :
    ∀ (idxs : List ℕ) (cum : List ℚ) (volRest : ℚ),
      innerLoop res idxs cum volRest =
        (((innerPos idxs cum volRest).1).map (fun e => (res.getD e.1 0, e.2)),
          (innerPos idxs cum volRest).2.1) := by
  intro idxs
  induction idxs with
  | nil => intro cum volRest; rfl
  | cons j js ih =>
    intro cum volRest
    rw [innerLoop, innerPos]
    by_cases h : min volRest (cum.getD j 0) = 0
    · simp only [h, if_true, if_pos rfl]
      exact ih cum volRest
    · simp only [h, if_false, ih, List.map_cons]

/-- If `vol_rest` is zero and every window from `s` on is already fully
consumed or ahead of the consumption point, the inner loop skips every
remaining index and changes nothing. -/
theorem innerPos_skip (l : List ℚ) (hV : ∀ x ∈ l, 0 ≤ x) :
    ∀ (k s : ℕ) (C : ℚ), s + k ≤ l.length → C ≤ cumVol l s →
      innerPos (List.range' s k) (shiftCum l C) 0 = ([], shiftCum l C, 0) := by
  intro k
  induction k with
  | zero => intro s C _ _; rfl
  | succ k2 ih =>
    intro s C hb hC
    rw [List.range'_succ, innerPos]
    have hgd : (shiftCum l C).getD s 0 = cumVol l s - C :=
      shiftCum_getD l C (by omega)
    have hmin : min (0 : ℚ) ((shiftCum l C).getD s 0) = 0 := by
      rw [hgd]
      exact min_eq_left (by linarith)
    simp only [hmin, if_pos rfl]
    have hnext : cumVol l s ≤ cumVol l (s + 1) := by
      rw [cumVol_eq_preVol, cumVol_eq_preVol]
      exact preVol_mono l hV (by omega)
    exact ih (s + 1) C (by omega) (le_trans hC hnext)


theorem cumVol_mono (l : List ℚ) (hV : ∀ x ∈ l, 0 ≤ x) {i j : ℕ} (h : i ≤ j) :
    cumVol l i ≤ cumVol l j := by
  rw [cumVol_eq_preVol, cumVol_eq_preVol]
  exact preVol_mono l hV (by omega)

theorem cumVol_le_sum (l : List ℚ) (hV : ∀ x ∈ l, 0 ≤ x) (j : ℕ) :
    cumVol l j ≤ l.sum := by
  rw [cumVol_eq_preVol]
  exact preVol_le_sum l hV (j + 1)

theorem posSum_nil (j : ℕ) : posSum [] j = 0 := rfl

theorem posSum_cons (i : ℕ) (a : ℚ) (es : List (ℕ × ℚ)) (j : ℕ) :
    posSum ((i, a) :: es) j = (if i = j then a else 0) + posSum es j := by
  simp [posSum]

/-- The step-attribution invariant of the inner loop: starting from total
consumption `C` (with `volumes_cum = shiftCum l C`) inside the window of
position `s`, the loop over `range(s, s + k)` emits per-position volumes
whose sums are exactly the differences of the per-window consumption
clamps between the final consumption `C2` and `C`; the final `vol_rest`
and `C2` are characterised for each contingency the outer loop needs. -/
theorem innerPos_spec (l : List ℚ) (hV : ∀ x ∈ l, 0 ≤ x) :
    ∀ (k s : ℕ) (C rest : ℚ),
      s + k ≤ l.length →
      preVol l s ≤ C → C ≤ cumVol l s → C ≤ l.sum →
      (0 < k → rest < 0 → preVol l s ≤ C + rest) →
      ∃ es C2 rest2,
        innerPos (List.range' s k) (shiftCum l C) rest = (es, shiftCum l C2, rest2) ∧
        C2 = C + (rest - rest2) ∧
        (∀ j, posSum es j = clampAt l C2 j - clampAt l C j) ∧
        (0 ≤ rest → 0 ≤ rest2) ∧
        (rest < 0 → 0 < k → rest2 = 0) ∧
        (k = 0 → rest2 = rest) ∧
        (0 ≤ rest → rest2 ≠ 0 → 0 < k → C2 = cumVol l (s + k - 1)) ∧
        preVol l s ≤ C2 ∧ C2 ≤ l.sum ∧
        (∀ e ∈ es, e.1 < l.length) := by
  intro k
  induction k with
  | zero =>
    intro s C rest hb h1 h2 hsum hneg
    refine ⟨[], C, rest, rfl, by ring, fun j => by simp [posSum_nil], fun h => h,
      ?_, fun _ => rfl, ?_, h1, hsum, ?_⟩
    · intro _ h0; omega
    · intro _ _ h0; omega
    · intro e he; simp at he
  | succ k2 ih =>
    intro s C rest hb h1 h2 hsum hneg
    have hslen : s < l.length := by omega
    have hgd : (shiftCum l C).getD s 0 = cumVol l s - C := shiftCum_getD l C hslen
    have hx0 : 0 ≤ cumVol l s - C := by linarith
    have hCs1 : cumVol l s ≤ cumVol l (s + 1) := cumVol_mono l hV (by omega)
    have hps1 : preVol l (s + 1) = cumVol l s := (cumVol_eq_preVol l s).symm
    have hpss : preVol l s ≤ preVol l (s + 1) := preVol_mono l hV (by omega)
    have hcls : cumVol l s ≤ l.sum := cumVol_le_sum l hV s
    rw [List.range'_succ, innerPos]
    rw [hgd] at *
    by_cases hz : min rest (cumVol l s - C) = 0
    · -- the head index is skipped
      rw [if_pos hz]
      rcases lt_trichotomy rest 0 with hr | hr | hr
      · exfalso
        have hm : min rest (cumVol l s - C) ≤ rest := min_le_left _ _
        rw [hz] at hm
        linarith
      · -- vol_rest is already zero: everything from here on is skipped
        subst hr
        rw [innerPos_skip l hV k2 (s + 1) C (by omega) (le_trans h2 hCs1)]
        refine ⟨[], C, 0, rfl, by ring, fun j => by simp [posSum_nil], fun _ => le_refl 0,
          fun _ _ => rfl, fun _ => rfl, fun _ h0 _ => absurd rfl h0, h1, hsum, ?_⟩
        intro e he; simp at he
      · -- vol_rest positive but the head window is exhausted: C = cumVol s
        have hxz : cumVol l s - C = 0 := by
          rcases le_total rest (cumVol l s - C) with hcase | hcase
          · exact absurd (min_eq_left hcase ▸ hz) (by intro h0; linarith)
          · exact min_eq_right hcase ▸ hz
        obtain ⟨es, C2, rest2, heq, hc2, hdelta, hr0, hrneg, hk0, hfull, hlow, hup, hmem⟩ :=
          ih (s + 1) C rest (by omega) (by linarith) (by linarith) hsum
            (by intro _ h0; linarith)
        refine ⟨es, C2, rest2, heq, hc2, hdelta, hr0, ?_, ?_, ?_, le_trans hpss hlow,
          hup, hmem⟩
        · intro h0 _; linarith
        · intro h0; exact absurd h0 (Nat.succ_ne_zero k2)
        · intro ha2 hb2 _
          rcases Nat.eq_zero_or_pos k2 with hk | hk
          · subst hk
            have hr2 := hk0 rfl
            have : C2 = C := by rw [hc2, hr2]; ring
            rw [this]
            have hidx : s + (0 + 1) - 1 = s := by omega
            rw [hidx]
            linarith
          · have hidx : s + 1 + k2 - 1 = s + (k2 + 1) - 1 := by omega
            rw [← hidx]
            exact hfull ha2 hb2 hk
    · -- the head index emits min(vol_rest, cum[s])
      rw [if_neg hz]
      rw [shiftCum_map_sub]
      set a := min rest (cumVol l s - C) with ha
      rcases lt_trichotomy rest 0 with hr | hr | hr
      · -- negative vol_rest: a = rest, single negative emission, then skips
        have har : a = rest := min_eq_left (by linarith)
        have hlneg := hneg (Nat.succ_pos k2) hr
        have htail : innerPos (List.range' (s + 1) k2) (shiftCum l (C + a)) (rest - a)
            = ([], shiftCum l (C + a), 0) := by
          rw [har, sub_self]
          exact innerPos_skip l hV k2 (s + 1) (C + rest) (by omega)
            (by linarith)
        rw [htail]
        refine ⟨[(s, a)], C + a, 0, rfl, by rw [har]; ring, ?_, ?_, fun _ _ => rfl,
          fun h0 => absurd h0 (Nat.succ_ne_zero k2), ?_, by rw [har]; linarith,
          by rw [har]; linarith, ?_⟩
        · intro j
          rw [posSum_cons, posSum_nil, add_zero]
          rw [clampAt_delta l hV h1 h2 (by rw [har]; linarith) (by rw [har]; linarith) j]
          split <;> ring
        · intro h0; linarith
        · intro h0; exact absurd h0 (not_le.mpr hr)
        · intro e he
          simp at he
          subst he
          exact hslen
      · exfalso
        exact hz (by rw [← hr] at hx0 ⊢; exact min_eq_left (by linarith))
      · -- positive vol_rest
        have ha0 : 0 ≤ a := le_min (le_of_lt hr) hx0
        rcases le_total rest (cumVol l s - C) with hcase | hcase
        · -- a = rest: consumption ends inside this window, then skips
          have har : a = rest := min_eq_left hcase
          have htail : innerPos (List.range' (s + 1) k2) (shiftCum l (C + a)) (rest - a)
              = ([], shiftCum l (C + a), 0) := by
            rw [har, sub_self]
            exact innerPos_skip l hV k2 (s + 1) (C + rest) (by omega)
              (by linarith)
          rw [htail]
          refine ⟨[(s, a)], C + a, 0, rfl, by rw [har]; ring, ?_, fun _ => le_refl 0,
            fun h0 _ => absurd h0 (by linarith), fun h0 => absurd h0 (Nat.succ_ne_zero k2),
            fun _ h0 _ => absurd rfl h0, by rw [har]; linarith, by rw [har]; linarith, ?_⟩
          · intro j
            rw [posSum_cons, posSum_nil, add_zero]
            rw [clampAt_delta l hV h1 h2 (by rw [har]; linarith) (by rw [har]; linarith) j]
            split <;> ring
          · intro e he
            simp at he
            subst he
            exact hslen
        · -- a = cum[s]: the window is consumed to its end, recurse
          have har : a = cumVol l s - C := min_eq_right hcase
          have hC' : C + a = cumVol l s := by rw [har]; ring
          obtain ⟨es, C2, rest2, heq, hc2, hdelta, hr0, hrneg, hk0, hfull, hlow, hup, hmem⟩ :=
            ih (s + 1) (C + a) (rest - a) (by omega) (by rw [hps1]; linarith)
              (by rw [hC']; exact hCs1) (by rw [hC']; exact hcls)
              (by intro _ h0; rw [hps1]; linarith)
          rw [heq]
          refine ⟨(s, a) :: es, C2, rest2, rfl, by rw [hc2]; ring, ?_, ?_, ?_,
            fun h0 => absurd h0 (Nat.succ_ne_zero k2), ?_, ?_, hup, ?_⟩
          · intro j
            have h6 : clampAt l (C + a) j - clampAt l C j = if s = j then a else 0 := by
              rw [clampAt_delta l hV h1 h2 (by linarith) (le_of_eq hC') j]
              split <;> ring
            have h5 := hdelta j
            rw [posSum_cons, h5]
            linarith
          · intro _
            exact hr0 (by linarith)
          · intro h0; linarith
          · intro ha2 hb2 _
            rcases Nat.eq_zero_or_pos k2 with hk | hk
            · subst hk
              have hr2 := hk0 rfl
              have hcc : C2 = C + a := by rw [hc2, hr2]; ring
              have hidx : s + (0 + 1) - 1 = s := by omega
              rw [hidx, hcc, hC']
            · have hidx : s + 1 + k2 - 1 = s + (k2 + 1) - 1 := by omega
              rw [← hidx]
              exact hfull (by linarith) hb2 hk
          · exact le_trans hpss hlow
          · intro e he
            rcases List.mem_cons.mp he with he1 | he2
            · rw [he1]; exact hslen
            · exact hmem e he2


theorem ite_add_zero {P : Prop} [Decidable P] (x y : ℚ) :
    (if P then x + y else 0) = (if P then x else 0) + (if P then y else 0) := by
  by_cases h : P <;> simp [h]

theorem ite_ite_comm {P Q : Prop} [Decidable P] [Decidable Q] (a : ℚ) :
    (if P then (if Q then a else 0) else 0) = if Q then (if P then a else 0) else 0 := by
  by_cases hp : P <;> by_cases hq : Q <;> simp [hp, hq]

theorem drawnRes_nil (r : ℤ) : drawnRes [] r = 0 := rfl

theorem drawnRes_cons (p : ℤ × ℚ) (ts : List (ℤ × ℚ)) (r : ℤ) :
    drawnRes (p :: ts) r = (if p.1 = r then p.2 else 0) + drawnRes ts r := by
  simp [drawnRes]

theorem drawnRes_append (ts1 ts2 : List (ℤ × ℚ)) (r : ℤ) :
    drawnRes (ts1 ++ ts2) r = drawnRes ts1 r + drawnRes ts2 r := by
  simp [drawnRes]

/-- Reservoir-level sums of a position-emission list mapped through the
reservoir array are the position sums grouped by reservoir. -/
theorem drawnRes_map_posSum (R : List ℤ) (len : ℕ) :
    ∀ es : List (ℕ × ℚ), (∀ e ∈ es, e.1 < len) → ∀ r : ℤ,
      drawnRes (es.map (fun e => (R.getD e.1 0, e.2))) r =
        ∑ j in Finset.range len, (if R.getD j 0 = r then posSum es j else 0) := by
  intro es
  induction es with
  | nil =>
    intro _ r
    simp [drawnRes, posSum]
  | cons e es2 ih =>
    intro hb r
    obtain ⟨i, a⟩ := e
    rw [List.map_cons, drawnRes_cons]
    have hi : i < len := by simpa using hb (i, a) (List.mem_cons_self _ _)
    rw [ih (fun e2 he2 => hb e2 (List.mem_cons_of_mem _ he2)) r]
    have hsplit : ∀ j ∈ Finset.range len,
        (if R.getD j 0 = r then posSum ((i, a) :: es2) j else 0) =
          (if i = j then (if R.getD j 0 = r then a else 0) else 0) +
            (if R.getD j 0 = r then posSum es2 j else 0) := by
      intro j _
      rw [posSum_cons, ite_add_zero, ite_ite_comm]
    rw [Finset.sum_congr rfl hsplit, Finset.sum_add_distrib,
      Finset.sum_ite_eq (Finset.range len) i (fun j => if R.getD j 0 = r then a else 0),
      if_pos (Finset.mem_range.mpr hi)]

/-- `drawnRes` of an arbitrary pair list as a positional sum. -/
theorem drawnRes_eq_sum_getD (pairs : List (ℤ × ℚ)) (r : ℤ) :
    drawnRes pairs r = ∑ j in Finset.range pairs.length,
      (if (pairs.getD j (0, 0)).1 = r then (pairs.getD j (0, 0)).2 else 0) := by
  induction pairs with
  | nil => simp [drawnRes]
  | cons p ps ih =>
    rw [drawnRes_cons, ih, List.length_cons, Finset.sum_range_succ']
    simp only [List.getD_cons_succ, List.getD_cons_zero]
    exact add_comm _ _


/-- The outer-loop invariant of `_assemble_tubing_stack`: starting at
remaining-step index `m` with total consumption `C` such that consumption
has either passed window `m` plus the previous reservoir's dead volume, or
exhausted the whole array, a successful run of the remaining iterations
ends with a consumption `C2` past every remaining window, and the
per-reservoir totals of the emitted stack are the clamp differences
between `C2` and `C`. -/
theorem outerLoop_spec (tc : TubingConfig) (R : List ℤ) (l : List ℚ)
    (hV : ∀ x ∈ l, 0 ≤ x)
    (hdvp : ∀ x : ℤ, 0 ≤ calc_vol_to_inlet tc x) :
    ∀ (t m : ℕ) (C : ℚ) (sts : List (List (ℤ × ℚ))),
      m + t + 1 = l.length →
      (((m = 0 → C = 0) ∧
        (0 < m → preVol l m + calc_vol_to_inlet tc (R.getD (m - 1) 0) ≤ C)) ∨
        C = l.sum) →
      0 ≤ C → C ≤ l.sum →
      outerLoop tc R l (List.range' m t) (shiftCum l C) = some sts →
      ∃ C2, 0 ≤ C2 ∧ C2 ≤ l.sum ∧ preVol l (m + t) ≤ C2 ∧
        ∀ r, drawnRes sts.join r =
          ∑ j in Finset.range l.length,
            (if R.getD j 0 = r then clampAt l C2 j - clampAt l C j else 0) := by
  intro t
  induction t with
  | zero =>
    intro m C sts hlen hinv hC0 hCs hok
    have h2 : some ([] : List (List (ℤ × ℚ))) = some sts := hok
    have h3 : ([] : List (List (ℤ × ℚ))) = sts := by injection h2
    subst h3
    refine ⟨C, hC0, hCs, ?_, ?_⟩
    · rw [Nat.add_zero]
      rcases hinv with ⟨hz, hp⟩ | hs
      · rcases Nat.eq_zero_or_pos m with hm | hm
        · subst hm
          rw [hz rfl, preVol_zero]
        · have h4 := hp hm
          have hd := hdvp (R.getD (m - 1) 0)
          linarith
      · rw [hs]
        exact preVol_le_sum l hV m
    · intro r
      simp [drawnRes, sub_self]
  | succ t2 ih =>
    intro m C sts hlen hinv hC0 hCs hok
    rw [List.range'_succ, outerLoop] at hok
    split at hok
    · exact absurd hok (by simp)
    · rename_i res hstep
      split at hok
      · exact absurd hok (by simp)
      · rename_i rest houter
        have hstacks : res.1 :: rest = sts := by injection hok
        subst hstacks
        unfold outerStep at hstep
        split at hstep
        · exact absurd hstep (by simp)
        · rename_i s hf1
          injection hstep with hres
          set VOL := stepVol tc R l m with hVOL
          set K := cumStopOf VOL (shiftCum l C) - s with hK
          obtain ⟨hslen0, hs_pos, hs_all⟩ := argfirst_some _ _ _ hf1
          rw [shiftCum_length] at hslen0
          rw [shiftCum_getD l C hslen0] at hs_pos
          have hs_pos2 : 0 < cumVol l s - C := of_decide_eq_true hs_pos
          have hs_all2 : ∀ i, i < s → cumVol l i ≤ C := by
            intro i hi
            have h5 := hs_all i hi
            rw [shiftCum_getD l C (by omega)] at h5
            have h6 := of_decide_eq_false h5
            linarith
          have hinvL : (m = 0 → C = 0) ∧
              (0 < m → preVol l m + calc_vol_to_inlet tc (R.getD (m - 1) 0) ≤ C) := by
            rcases hinv with h | h
            · exact h
            · exfalso
              have h6 := cumVol_le_sum l hV s
              rw [h] at hs_pos2
              linarith
          have hkey : preVol l (m + 1) + calc_vol_to_inlet tc (R.getD m 0) ≤ C + VOL := by
            rw [hVOL]
            unfold stepVol
            rcases Nat.eq_zero_or_pos m with hm | hm
            · subst hm
              rw [if_pos rfl, hinvL.1 rfl, preVol_succ, preVol_zero]
              linarith
            · rw [if_neg (by omega)]
              have h7 := hinvL.2 hm
              rw [preVol_succ]
              linarith
          have hH1 : preVol l s ≤ C := by
            rcases Nat.eq_zero_or_pos s with hs0 | hs0
            · subst hs0
              rw [preVol_zero]
              exact hC0
            · have h8 := hs_all2 (s - 1) (by omega)
              have h9 : cumVol l (s - 1) = preVol l s := by
                rw [cumVol_eq_preVol]
                congr 1
                omega
              rw [h9] at h8
              exact h8
          have hHneg : 0 < K → VOL < 0 → preVol l s ≤ C + VOL := by
            intro hkpos hvneg
            rcases Nat.eq_zero_or_pos s with hs0 | hs0
            · subst hs0
              rw [preVol_zero]
              have hd := hdvp (R.getD m 0)
              have hpn := preVol_nonneg l hV (m + 1)
              linarith
            · have h9 : cumVol l (s - 1) = preVol l s := by
                rw [cumVol_eq_preVol]
                congr 1
                omega
              rcases hf2 : argfirst (fun c => decide (VOL < c)) (shiftCum l C) with _ | k0
              · have h10 := argfirst_none _ _ hf2 (s - 1) (by rw [shiftCum_length]; omega)
                rw [shiftCum_getD l C (by omega)] at h10
                have h11 := of_decide_eq_false h10
                rw [h9] at h11
                linarith
              · have hKv : K = k0 + 1 - s := by rw [hK]; unfold cumStopOf; rw [hf2]
                obtain ⟨-, -, hk0all⟩ := argfirst_some _ _ _ hf2
                have h10 := hk0all (s - 1) (by omega)
                rw [shiftCum_getD l C (by omega)] at h10
                have h11 := of_decide_eq_false h10
                rw [h9] at h11
                linarith
          have hbound : s + K ≤ l.length := by
            rcases hf2 : argfirst (fun c => decide (VOL < c)) (shiftCum l C) with _ | k0
            · have hKv : K = (shiftCum l C).length - s := by
                rw [hK]; unfold cumStopOf; rw [hf2]
              rw [shiftCum_length] at hKv
              omega
            · obtain ⟨hk0len, -, -⟩ := argfirst_some _ _ _ hf2
              rw [shiftCum_length] at hk0len
              have hKv : K = k0 + 1 - s := by
                rw [hK]; unfold cumStopOf; rw [hf2]
              omega
          obtain ⟨es, C2p, rest2, heq, hc2, hdelta, hr0, hrneg, hk0, hfull, hlow, hup, hmem⟩ :=
            innerPos_spec l hV K s C VOL hbound hH1 (by linarith) hCs hHneg
          have hres2 : res = (es.map (fun e => (R.getD e.1 0, e.2)), shiftCum l C2p) := by
            rw [← hres, innerLoop_eq_innerPos, heq]
          have hres1 : res.1 = es.map (fun e => (R.getD e.1 0, e.2)) := by rw [hres2]
          have hressnd : res.2 = shiftCum l C2p := by rw [hres2]
          rw [hressnd] at houter
          have hinv2 : (((m + 1 = 0 → C2p = 0) ∧
              (0 < m + 1 →
                preVol l (m + 1) + calc_vol_to_inlet tc (R.getD (m + 1 - 1) 0) ≤ C2p)) ∨
              C2p = l.sum) := by
            have hidx1 : m + 1 - 1 = m := by omega
            rcases eq_or_ne rest2 0 with hr2 | hr2
            · left
              refine ⟨by omega, fun _ => ?_⟩
              have hC2v : C2p = C + VOL := by rw [hc2, hr2]; ring
              rw [hidx1, hC2v]
              exact hkey
            · rcases Nat.eq_zero_or_pos K with hk | hkpos
              · have hvneg : VOL < 0 := by
                  rcases hf2 : argfirst (fun c => decide (VOL < c)) (shiftCum l C) with _ | k0
                  · exfalso
                    have hKv : K = (shiftCum l C).length - s := by
                      rw [hK]; unfold cumStopOf; rw [hf2]
                    rw [shiftCum_length] at hKv
                    omega
                  · have hKv : K = k0 + 1 - s := by rw [hK]; unfold cumStopOf; rw [hf2]
                    obtain ⟨hk0len, hk0pos, -⟩ := argfirst_some _ _ _ hf2
                    rw [shiftCum_length] at hk0len
                    have hk0s : k0 < s := by omega
                    have h12 := hs_all2 k0 hk0s
                    rw [shiftCum_getD l C (by omega)] at hk0pos
                    have h13 := of_decide_eq_true hk0pos
                    linarith
                left
                refine ⟨by omega, fun _ => ?_⟩
                have hC2v : C2p = C := by rw [hc2, hk0 hk]; ring
                rw [hidx1, hC2v]
                linarith
              · have hv0 : 0 ≤ VOL := by
                  by_contra hneg2
                  exact hr2 (hrneg (by linarith) hkpos)
                have hC2c := hfull hv0 hr2 hkpos
                rcases hf2 : argfirst (fun c => decide (VOL < c)) (shiftCum l C) with _ | k0
                · right
                  have hKv : K = (shiftCum l C).length - s := by
                    rw [hK]; unfold cumStopOf; rw [hf2]
                  rw [shiftCum_length] at hKv
                  have hidx : s + K - 1 = l.length - 1 := by omega
                  rw [hC2c, hidx, cumVol_eq_preVol]
                  have hidx2 : l.length - 1 + 1 = l.length := by omega
                  rw [hidx2, preVol_length]
                · exfalso
                  obtain ⟨hk0len, hk0pos, -⟩ := argfirst_some _ _ _ hf2
                  rw [shiftCum_length] at hk0len
                  rw [shiftCum_getD l C hk0len] at hk0pos
                  have h13 := of_decide_eq_true hk0pos
                  have hKv : K = k0 + 1 - s := by rw [hK]; unfold cumStopOf; rw [hf2]
                  have hsk : s + K - 1 = k0 := by omega
                  rw [hsk] at hC2c
                  have hrest2pos : 0 < rest2 := lt_of_le_of_ne (hr0 hv0) (Ne.symm hr2)
                  linarith
          have hC2p0 : 0 ≤ C2p := le_trans (preVol_nonneg l hV s) hlow
          obtain ⟨C2, hC20, hC2s, hC2pre, hdrawn⟩ :=
            ih (m + 1) C2p rest (by omega) hinv2 hC2p0 hup houter
          refine ⟨C2, hC20, hC2s, ?_, ?_⟩
          · have hidx3 : m + 1 + t2 = m + (t2 + 1) := by omega
            rw [← hidx3]
            exact hC2pre
          · intro r
            have hjoin : (res.1 :: rest).join = res.1 ++ rest.join := rfl
            rw [hjoin, drawnRes_append, hres1,
              drawnRes_map_posSum R l.length es hmem r, hdrawn r,
              ← Finset.sum_add_distrib]
            refine Finset.sum_congr rfl ?_
            intro j _
            rcases eq_or_ne (R.getD j 0) r with h14 | h14
            · rw [if_pos h14, if_pos h14, if_pos h14, hdelta j]
              ring
            · rw [if_neg h14, if_neg h14, if_neg h14, add_zero]


/-- Claim C1, amended.  Volume conservation of the tubing-stack scheduler,
under the hypotheses the counterexample forces (all dead volumes and all
requested volumes nonnegative, and the computation completing without the
`IndexError`): for every reservoir, the sum of the volumes of all
`(reservoir, volume)` tuples referencing it across the computed stack
equals the reservoir's total requested volume over the remaining steps,
plus — only for the flush-buffer reservoir — a single carry `c` with
`0 ≤ c ≤ deadvol(flushbuffer)`: the dead-volume front of the synthetic
terminal flush request, which is its (the flush buffer's) next use; every
other reservoir's drawn total is exactly its requested total (zero carry
at its last use). -/
theorem assemble_volume_conservation (tc : TubingConfig) (fb : ℤ) (steps : List PEntry)
    (hrp : ∀ r, 0 ≤ tc.resPump r) (hpf : 0 ≤ tc.pumpFlush) (hfs : 0 ≤ tc.flushSample)
    (hvs : ∀ p ∈ steps, 0 ≤ entryVol p)
    (stack : List (List (ℤ × ℚ)))
    (hok : assembleTubingStack tc fb steps = some stack) :
    ∃ c, 0 ≤ c ∧ c ≤ calc_vol_to_inlet tc (toInt32 fb) ∧
      ∀ r : ℤ, drawnRes stack.join r =
        requestedTotal tc fb steps r + (if r = toInt32 fb then c else 0) := by
  set R := reservoirsArr tc fb steps with hR
  set l := volumesArr tc fb steps with hl
  have hdvp : ∀ x : ℤ, 0 ≤ calc_vol_to_inlet tc x := by
    intro x
    unfold calc_vol_to_inlet
    have := hrp x
    linarith
  have hV : ∀ x ∈ l, 0 ≤ x := by
    intro x hx
    rw [hl] at hx
    unfold volumesArr at hx
    rcases List.mem_append.mp hx with hx1 | hx2
    · obtain ⟨p, hp, hpe⟩ := List.mem_map.mp hx1
      rw [← hpe]
      have hv := hvs p hp
      cases p with
      | inject rid v => simpa [stepRV, entryVol] using hv
      | flush ff =>
        simp only [stepRV]
        exact mul_nonneg (by simpa [entryVol] using hv) (by linarith [hrp fb])
      | other => simp [stepRV]
    · simp only [List.mem_singleton] at hx2
      rw [hx2]
      exact hdvp _
  have hlen : l.length = steps.length + 1 := by
    rw [hl]
    simp [volumesArr]
  have hok2 : outerLoop tc R l (List.range' 0 steps.length) (shiftCum l 0) = some stack := by
    rw [← List.range_eq_range', shiftCum_zero]
    exact hok
  obtain ⟨C2, hC20, hC2s, hC2pre, hdrawn⟩ :=
    outerLoop_spec tc R l hV hdvp steps.length 0 0 stack (by omega)
      (Or.inl ⟨fun _ => rfl, fun h => absurd h (by omega)⟩) le_rfl
      (List.sum_nonneg hV) hok2
  rw [Nat.zero_add] at hC2pre
  have hC2top : C2 ≤ preVol l (steps.length + 1) := by
    rw [← hlen, preVol_length]
    exact hC2s
  -- index facts about the two arrays
  have hRj : ∀ j, j < steps.length →
      R.getD j 0 = ((steps.map (stepRV tc fb)).getD j (0, 0)).1 := by
    intro j hj
    rw [hR]
    unfold reservoirsArr
    rw [List.getD_eq_getElem _ _ (by simp; omega),
      List.getD_eq_getElem _ _ (by simpa using hj),
      List.getElem_append_left (by simpa using hj)]
    simp
  have hVj : ∀ j, j < steps.length →
      l.getD j 0 = ((steps.map (stepRV tc fb)).getD j (0, 0)).2 := by
    intro j hj
    rw [hl]
    unfold volumesArr
    rw [List.getD_eq_getElem _ _ (by simp; omega),
      List.getD_eq_getElem _ _ (by simpa using hj),
      List.getElem_append_left (by simpa using hj)]
    simp
  have hRn : R.getD steps.length 0 = toInt32 fb := by
    rw [hR]
    unfold reservoirsArr
    rw [List.getD_eq_getElem _ _ (by simp),
      List.getElem_append_right (by simp)]
    simp
  have hVn : l.getD steps.length 0 = calc_vol_to_inlet tc (toInt32 fb) := by
    rw [hl]
    unfold volumesArr
    rw [List.getD_eq_getElem _ _ (by simp),
      List.getElem_append_right (by simp)]
    simp
  refine ⟨C2 - preVol l steps.length, by linarith, ?_, ?_⟩
  · have hstep := preVol_succ l steps.length
    rw [hVn] at hstep
    linarith
  · intro r
    rw [hdrawn r, hlen, Finset.sum_range_succ]
    have hterm : (if R.getD steps.length 0 = r
        then clampAt l C2 steps.length - clampAt l 0 steps.length else 0) =
        (if r = toInt32 fb then C2 - preVol l steps.length else 0) := by
      rw [hRn, clampAt_zero l hV, clampAt_mid l hC2pre hC2top, sub_zero]
      rcases eq_or_ne (toInt32 fb) r with h1 | h1
      · rw [if_pos h1, if_pos h1.symm]
      · rw [if_neg h1, if_neg (Ne.symm h1)]
    rw [hterm]
    have hmain : ∀ j ∈ Finset.range steps.length,
        (if R.getD j 0 = r then clampAt l C2 j - clampAt l 0 j else 0) =
          (if ((steps.map (stepRV tc fb)).getD j (0, 0)).1 = r
            then ((steps.map (stepRV tc fb)).getD j (0, 0)).2 else 0) := by
      intro j hj
      have hj2 := Finset.mem_range.mp hj
      have hjf : clampAt l C2 j = l.getD j 0 := by
        refine clampAt_full l hV (le_trans ?_ hC2pre)
        exact preVol_mono l hV (by omega)
      rw [clampAt_zero l hV, hjf, sub_zero, hRj j hj2, hVj j hj2]
    rw [Finset.sum_congr rfl hmain]
    have hreq : requestedTotal tc fb steps r =
        ∑ j in Finset.range steps.length,
          (if ((steps.map (stepRV tc fb)).getD j (0, 0)).1 = r
            then ((steps.map (stepRV tc fb)).getD j (0, 0)).2 else 0) := by
      unfold requestedTotal
      rw [drawnRes_eq_sum_getD]
      simp
    rw [← hreq]

/-- Claim C1, witness: the conservation theorem applied to the end-to-end
scenario input (dead volumes 100 and 50, steps
`[inject(1,500), inject(2,200)]`, flush buffer 3). -/
theorem assemble_volume_conservation_witness :
    ∃ c, 0 ≤ c ∧ c ≤ calc_vol_to_inlet tcScenario (toInt32 3) ∧
      ∀ r : ℤ,
        drawnRes ([[((1 : ℤ), (500 : ℚ)), (2, 150)], [(2, 50), (3, 50)]] :
          List (List (ℤ × ℚ))).join r =
          requestedTotal tcScenario 3 stepsScenario r + (if r = toInt32 3 then c else 0) :=
  assemble_volume_conservation tcScenario 3 stepsScenario
    (by intro r; unfold tcScenario; dsimp only; split <;> norm_num)
    (by norm_num [tcScenario]) (by norm_num [tcScenario])
    (by with_unfolding_all decide)
    [[(1, 500), (2, 150)], [(2, 50), (3, 50)]]
    (by with_unfolding_all decide)

end PycroFlow
